import Mathlib

/-
Verification of the SenseiLua analyzer (sensei_lua/analyzer.py).

Lines are modelled as lists of characters; the Python functions of the
analyzer module are translated one-to-one.  Python `str.isalpha` is modelled
by `Char.isAlpha`; `str.splitlines` is modelled on the newline boundaries
that occur in the analysed claims (LF, CR, CRLF).
-/

namespace SenseiLua

/-- Single-quote character, used to build issue messages. -/
def squote : Char := Char.ofNat 39

/-- Double-quote character. -/
def dquote : Char := Char.ofNat 34

/-- Issue record: mirrors the `Issue` dataclass (line, column, message, code). -/
structure Issue where
  line : Nat
  column : Nat
  message : String
  code : String
deriving DecidableEq, Repr

/-- The `_BLOCK_PAIRS` dict: opening keyword to its required closing keyword. -/
def BLOCK_PAIRS (t : List Char) : Option (List Char) :=
  if t = ("function".data) then some ("end".data)
  else if t = ("do".data) then some ("end".data)
  else if t = ("then".data) then some ("end".data)
  else if t = ("repeat".data) then some ("until".data)
  else none

/-- The `_BLOCK_ENDINGS` set. -/
def BLOCK_ENDINGS (t : List Char) : Bool :=
  t == ("end".data) || t == ("until".data)

/-- Character-level state machine of `_strip_comments`: first argument is the
`in_string` state (`none` or the opening quote).  In a string, a backslash
consumes the following character as escaped and emits a single space. -/
def stripAux : Option Char → List Char → List Char
  | _, [] => []
  | none, c :: rest =>
      if c = '-' ∧ rest.head? = some '-' then []
      else if c = dquote ∨ c = squote then ' ' :: stripAux (some c) rest
      else c :: stripAux none rest
  | some q, c :: rest =>
      if c = '\\' then
        match rest with
        | [] => [' ']
        | _ :: rest2 => ' ' :: stripAux (some q) rest2
      else if c = q then ' ' :: stripAux none rest
      else ' ' :: stripAux (some q) rest

/-- The `_strip_comments` function. -/
def strip_comments (line : List Char) : List Char := stripAux none line

/-- Identifier-character test used by `_tokenize`: `ch.isalpha() or ch == "_"`. -/
def isWordChar (c : Char) : Bool := c.isAlpha || c == '_'

/-- Accumulator form of `_tokenize` (the accumulated word is kept reversed). -/
def tokenizeAux : List Char → List Char → List (List Char)
  | word, [] => if word.isEmpty then [] else [word.reverse]
  | word, c :: rest =>
      if isWordChar c then tokenizeAux (c :: word) rest
      else if word.isEmpty then tokenizeAux [] rest
      else word.reverse :: tokenizeAux [] rest

/-- The `_tokenize` generator: maximal runs of alphabetic/underscore characters. -/
def tokenize (line : List Char) : List (List Char) := tokenizeAux [] line

/-- First index at which `token` occurs as a substring, `none` if absent
(models `str.find`, which returns the leftmost occurrence). -/
def findSub (token : List Char) : List Char → Option Nat
  | [] => if token.isEmpty then some 0 else none
  | c :: rest =>
      if token.isPrefixOf (c :: rest) then some 0
      else
        match findSub token rest with
        | some i => some (i + 1)
        | none => none

/-- The `_find_column` function: 1-based first occurrence, 1 when absent. -/
def find_column (line token : List Char) : Nat :=
  match findSub token line with
  | some i => i + 1
  | none => 1

/-- Message of an unexpected-closer issue. -/
def unexpectedMsg (t : List Char) : String :=
  "Unexpected " ++ squote.toString ++ String.mk t ++ squote.toString

/-- Message of a mismatched-closer issue. -/
def expectedMsg (e : List Char) (startLine : Nat) : String :=
  "Expected " ++ squote.toString ++ String.mk e ++ squote.toString
    ++ " opened at line " ++ toString startLine

/-- Message of an unclosed-block issue. -/
def unclosedMsg (e : List Char) : String :=
  "Unclosed block expecting " ++ squote.toString ++ String.mk e ++ squote.toString

/-- A token together with the line it came from: the token text, the 1-based
line number, and the raw (unstripped) line used for column lookup. -/
structure Tok where
  text : List Char
  line : Nat
  raw : List Char
deriving DecidableEq, Repr

/-- One step of the `_check_block_balance` loop body on a single token:
returns the new stack (head is the top) and the issues emitted. -/
def stepTok (st : List (List Char × Nat)) (tk : Tok) :
    List (List Char × Nat) × List Issue :=
  match BLOCK_PAIRS tk.text with
  | some closer => ((closer, tk.line) :: st, [])
  | none =>
      if BLOCK_ENDINGS tk.text then
        match st with
        | [] =>
            ([], [⟨tk.line, find_column tk.raw tk.text, unexpectedMsg tk.text, "SYNTAX"⟩])
        | (expected, startLine) :: rest =>
            if expected = tk.text then (rest, [])
            else
              ((expected, startLine) :: rest,
               [⟨tk.line, find_column tk.raw tk.text, expectedMsg expected startLine, "SYNTAX"⟩])
      else (st, [])

/-- Run the block-balance loop over a token list from a given stack. -/
def runToks (st : List (List Char × Nat)) : List Tok → List (List Char × Nat) × List Issue
  | [] => (st, [])
  | tk :: rest =>
      ((runToks (stepTok st tk).1 rest).1,
       (stepTok st tk).2 ++ (runToks (stepTok st tk).1 rest).2)

/-- Tokens contributed by one raw line. -/
def lineToks (idx : Nat) (raw : List Char) : List Tok :=
  (tokenize (strip_comments raw)).map (fun t => ⟨t, idx, raw⟩)

/-- Tokens of all lines, numbering from `idx`. -/
def allToksFrom (idx : Nat) : List (List Char) → List Tok
  | [] => []
  | l :: ls => lineToks idx l ++ allToksFrom (idx + 1) ls

/-- Tokens of all lines, numbered from 1 as in the Python enumerate. -/
def allToks (lines : List (List Char)) : List Tok := allToksFrom 1 lines

/-- Issue reported for a block frame still on the stack at end of source. -/
def unclosedIssue (fr : List Char × Nat) : Issue :=
  ⟨fr.2, 1, unclosedMsg fr.1, "SYNTAX"⟩

/-- The `_check_block_balance` function.  The Python stack grows at the list
end and the final report iterates it bottom (oldest) to top; here the stack
head is the top, so the final report maps over its reverse. -/
def check_block_balance (lines : List (List Char)) : List Issue :=
  (runToks [] (allToks lines)).2
    ++ ((runToks [] (allToks lines)).1).reverse.map unclosedIssue

/-- Space-or-tab test used by the indentation and trailing checks. -/
def isSpaceTab (c : Char) : Bool := c == ' ' || c == '\t'

/-- Message of the width issue, parameterised by the configured indent size. -/
def widthMsg (n : Nat) : String :=
  "Indentation width should be a multiple of " ++ toString n

/-- Body of the `_check_indentation` loop for one line. -/
def check_indent_line (prefer_spaces : Bool) (indent_size : Nat) (idx : Nat)
    (line : List Char) : List Issue :=
  let stripped := line.dropWhile isSpaceTab
  let indent := line.takeWhile isSpaceTab
  if stripped = [] then []
  else if ' ' ∈ indent ∧ '\t' ∈ indent then
    [⟨idx, 1, "Mixed tabs and spaces in indentation", "INDENT"⟩]
  else
    (if prefer_spaces ∧ '\t' ∈ indent then
        [⟨idx, indent.findIdx (fun c => c == '\t') + 1,
          "Tab indentation found (expected spaces)", "INDENT"⟩]
     else [])
    ++
    (if indent ≠ [] ∧ indent.filter (fun c => !(c == ' ')) = indent then []
     else if indent ≠ [] ∧ (∀ c ∈ indent, c = ' ') ∧ indent.length % indent_size ≠ 0 then
        [⟨idx, indent.length, widthMsg indent_size, "INDENT"⟩]
     else [])

/-- The `_check_indentation` function, numbering lines from `idx`. -/
def checkIndentFrom (prefer_spaces : Bool) (indent_size : Nat) (idx : Nat) :
    List (List Char) → List Issue
  | [] => []
  | l :: ls =>
      check_indent_line prefer_spaces indent_size idx l
        ++ checkIndentFrom prefer_spaces indent_size (idx + 1) ls

/-- The `_check_indentation` function over all lines. -/
def check_indentation (lines : List (List Char)) (prefer_spaces : Bool)
    (indent_size : Nat) : List Issue :=
  checkIndentFrom prefer_spaces indent_size 1 lines

/-- Python `line.rstrip(" \t")`: drop trailing spaces and tabs. -/
def rstripST (line : List Char) : List Char :=
  (line.reverse.dropWhile isSpaceTab).reverse

/-- Body of the `_check_trailing_whitespace` loop for one line. -/
def check_trailing_line (idx : Nat) (line : List Char) : List Issue :=
  if rstripST line ≠ line then
    [⟨idx, line.length, "Trailing whitespace", "FORMAT"⟩]
  else []

/-- The `_check_trailing_whitespace` function, numbering lines from `idx`. -/
def checkTrailingFrom (idx : Nat) : List (List Char) → List Issue
  | [] => []
  | l :: ls => check_trailing_line idx l ++ checkTrailingFrom (idx + 1) ls

/-- The `_check_trailing_whitespace` function over all lines. -/
def check_trailing_whitespace (lines : List (List Char)) : List Issue :=
  checkTrailingFrom 1 lines

/-- Python `str.splitlines` on LF, CR and CRLF boundaries; the terminal empty
segment of a source ending in a newline is discarded. -/
def splitlinesAux (cur : List Char) : List Char → List (List Char)
  | [] => if cur.isEmpty then [] else [cur.reverse]
  | '\r' :: '\n' :: rest2 => cur.reverse :: splitlinesAux [] rest2
  | c :: rest =>
      if c = '\n' ∨ c = '\r' then cur.reverse :: splitlinesAux [] rest
      else splitlinesAux (c :: cur) rest

/-- Split a source string into lines. -/
def splitlines (s : List Char) : List (List Char) := splitlinesAux [] s

/-- The final-newline check inlined at the top of `analyze_source`. -/
def final_newline_check (source : List Char) : List Issue :=
  let lines := splitlines source
  if source ≠ [] ∧ source.getLast? ≠ some '\n' then
    [⟨if lines.isEmpty then 1 else lines.length,
      match lines.getLast? with
      | some last => last.length + 1
      | none => 1,
      "Missing final newline", "FORMAT"⟩]
  else []

/-- The `analyze_source` function: newline check, then indentation, trailing
whitespace and block balance, extending one issue list in that order. -/
def analyze_source (source : List Char) (prefer_spaces : Bool)
    (indent_size : Nat) : List Issue :=
  let lines := splitlines source
  let issues :=
    if source ≠ [] ∧ source.getLast? ≠ some '\n' then
      [⟨if lines.isEmpty then 1 else lines.length,
        match lines.getLast? with
        | some last => last.length + 1
        | none => 1,
        "Missing final newline", "FORMAT"⟩]
    else []
  let issues := issues ++ check_indentation lines prefer_spaces indent_size
  let issues := issues ++ check_trailing_whitespace lines
  issues ++ check_block_balance lines

/-- Predicate picking out the Missing final newline issue. -/
def pMissingNL (i : Issue) : Bool :=
  i.code == "FORMAT" && i.message == "Missing final newline"

/-- Test for two consecutive dash characters anywhere in a line, matching the
guard of the stripper state machine. -/
def hasDD : List Char → Bool
  | [] => false
  | c :: rest => (decide (c = '-' ∧ rest.head? = some '-')) || hasDD rest

/-- Shape of a closed string body as the stripper consumes it: a sequence of
ordinary characters (neither the delimiter nor a backslash) and
backslash-escape pairs; `n` counts consumed units (one space emitted per
unit), `k` counts the escape pairs among them. -/
inductive StrBody (q : Char) : List Char → Nat → Nat → Prop
  | nil : StrBody q [] 0 0
  | chr (c : Char) (rest : List Char) (n k : Nat) :
      c ≠ q → c ≠ '\\' → StrBody q rest n k → StrBody q (c :: rest) (n + 1) k
  | esc (c : Char) (rest : List Char) (n k : Nat) :
      StrBody q rest n k → StrBody q ('\\' :: c :: rest) (n + 1) (k + 1)

/-- Shape of an unterminated string tail: the stripper blanks it to the end
of the line without leaving string mode. -/
inductive OpenBody (q : Char) : List Char → Prop
  | nil : OpenBody q []
  | bs : OpenBody q ['\\']
  | chr (c : Char) (rest : List Char) :
      c ≠ q → c ≠ '\\' → OpenBody q rest → OpenBody q (c :: rest)
  | esc (c : Char) (rest : List Char) :
      OpenBody q rest → OpenBody q ('\\' :: c :: rest)

/-- Two lines with the same code: they agree on every character the stripper
copies in normal mode and differ only inside string literals (closed or
unterminated, escapes included) and in the text after a line-comment
marker. -/
inductive CodeAgree : List Char → List Char → Prop
  | nil : CodeAgree [] []
  | comment (r1 r2 : List Char) : CodeAgree ('-' :: '-' :: r1) ('-' :: '-' :: r2)
  | dash (r1 r2 : List Char) :
      r1.head? ≠ some '-' → r2.head? ≠ some '-' → CodeAgree r1 r2 →
      CodeAgree ('-' :: r1) ('-' :: r2)
  | code (c : Char) (r1 r2 : List Char) :
      c ≠ '-' → ¬(c = dquote ∨ c = squote) → CodeAgree r1 r2 →
      CodeAgree (c :: r1) (c :: r2)
  | str (q : Char) (b1 b2 r1 r2 : List Char) (n1 k1 n2 k2 : Nat) :
      q = dquote ∨ q = squote → StrBody q b1 n1 k1 → StrBody q b2 n2 k2 →
      CodeAgree r1 r2 →
      CodeAgree (q :: b1 ++ q :: r1) (q :: b2 ++ q :: r2)
  | ostr (q : Char) (b1 b2 : List Char) :
      q = dquote ∨ q = squote → OpenBody q b1 → OpenBody q b2 →
      CodeAgree (q :: b1) (q :: b2)

/-- Position-insensitive view of an issue: line, message and code, without
the column (columns of block-balance issues come from a raw-line text
search). -/
def issueKey (i : Issue) : Nat × String × String := (i.line, i.message, i.code)

/-- View of a token that ignores the raw line it was found on. -/
def tokKey (tk : Tok) : List Char × Nat := (tk.text, tk.line)

/-- Balanced sequences of block keyword tokens: every opener is immediately
followed by a balanced inner sequence, its required closer, and a balanced
remainder. -/
inductive Balanced : List (List Char) → Prop
  | nil : Balanced []
  | node (o c : List Char) (inner rest : List (List Char)) :
      BLOCK_PAIRS o = some c → Balanced inner → Balanced rest →
      Balanced (o :: inner ++ c :: rest)

/-! Helper lemmas about the trailing-whitespace strip. -/

theorem dropWhile_self_of_length {p : Char → Bool} :
    ∀ (l : List Char), (l.dropWhile p).length = l.length → l.dropWhile p = l := by
  intro l h
  induction l with
  | nil => rfl
  | cons a l ih =>
      by_cases hp : p a
      · rw [List.dropWhile_cons, if_pos hp] at h
        have hsub : List.Sublist (l.dropWhile p) l := List.dropWhile_sublist p
        have := hsub.length_le
        simp only [List.length_cons] at h
        omega
      · rw [List.dropWhile_cons, if_neg hp]

theorem dropWhile_idem {p : Char → Bool} (l : List Char) :
    (l.dropWhile p).dropWhile p = l.dropWhile p := by
  induction l with
  | nil => rfl
  | cons a l ih =>
      by_cases hp : p a
      · simpa [List.dropWhile_cons, hp] using ih
      · simp [List.dropWhile_cons, hp]

theorem rstripST_length_le (l : List Char) : (rstripST l).length ≤ l.length := by
  have hsub : List.Sublist (l.reverse.dropWhile isSpaceTab) l.reverse :=
    List.dropWhile_sublist isSpaceTab
  have := hsub.length_le
  simpa [rstripST] using this

theorem rstripST_ne_iff (l : List Char) :
    rstripST l ≠ l ↔ (rstripST l).length < l.length := by
  constructor
  · intro hne
    rcases Nat.lt_or_ge (rstripST l).length l.length with h | h
    · exact h
    · exfalso
      apply hne
      have hlen : (l.reverse.dropWhile isSpaceTab).length = l.reverse.length := by
        have h1 : (rstripST l).length ≤ l.length := rstripST_length_le l
        have h2 : (rstripST l).length = (l.reverse.dropWhile isSpaceTab).length := by
          simp [rstripST]
        simp only [List.length_reverse]
        omega
      have := dropWhile_self_of_length l.reverse hlen
      simp [rstripST, this]
  · intro hlt hEq
    rw [hEq] at hlt
    omega

theorem rstripST_idem (l : List Char) : rstripST (rstripST l) = rstripST l := by
  unfold rstripST
  rw [List.reverse_reverse, dropWhile_idem]

/-- Claim C8: a Trailing whitespace FORMAT issue is emitted for a line exactly
when stripping trailing spaces and tabs shortens it, with column equal to the
line length, and the check is idempotent: on the stripped line it emits
nothing. -/
theorem c8_trailing_whitespace_iff_shorter (idx : Nat) (line : List Char) :
    (check_trailing_line idx line =
      if (rstripST line).length < line.length then
        [⟨idx, line.length, "Trailing whitespace", "FORMAT"⟩]
      else []) ∧
    check_trailing_line idx (rstripST line) = [] := by
  constructor
  · unfold check_trailing_line
    rw [if_congr (rstripST_ne_iff line) rfl rfl]
  · unfold check_trailing_line
    rw [if_neg]
    intro h
    exact h (rstripST_idem line)

/-- Claim C10: on the empty source, analyze returns no issues at all, for
every configuration. -/
theorem c10_empty_source_no_issues (prefer_spaces : Bool) (indent_size : Nat) :
    analyze_source [] prefer_spaces indent_size = [] := rfl

/-- Decomposition of analyze into its four checks, shared by several claims. -/
theorem analyze_source_eq (source : List Char) (prefer_spaces : Bool) (indent_size : Nat) :
    analyze_source source prefer_spaces indent_size =
      final_newline_check source
        ++ check_indentation (splitlines source) prefer_spaces indent_size
        ++ check_trailing_whitespace (splitlines source)
        ++ check_block_balance (splitlines source) := by
  simp [analyze_source, final_newline_check, List.append_assoc]

/-- Claim C9: the result of analyze is exactly the concatenation of the
final-newline, indentation, trailing-whitespace and block-balance findings in
that fixed order; the concrete source shows the output is not globally sorted
by position (a line-2 finding precedes a line-1 finding). -/
theorem c9_fixed_check_order :
    (∀ (source : List Char) (prefer_spaces : Bool) (indent_size : Nat),
       analyze_source source prefer_spaces indent_size =
         final_newline_check source
           ++ check_indentation (splitlines source) prefer_spaces indent_size
           ++ check_trailing_whitespace (splitlines source)
           ++ check_block_balance (splitlines source)) ∧
    analyze_source ("end\nx \n".data) true 4 =
      [⟨2, 2, "Trailing whitespace", "FORMAT"⟩,
       ⟨1, 1, unexpectedMsg ("end".data), "SYNTAX"⟩] :=
  ⟨analyze_source_eq, rfl⟩

/-! Classification of the issues each check can emit, used for Claim C6. -/

theorem check_indent_line_code {ps : Bool} {n idx : Nat} {l : List Char} {i : Issue}
    (h : i ∈ check_indent_line ps n idx l) : i.code = "INDENT" := by
  simp only [check_indent_line] at h
  split_ifs at h <;> simp_all [List.mem_append]

theorem checkTrailingFrom_mem {idx : Nat} {ls : List (List Char)} {i : Issue}
    (h : i ∈ checkTrailingFrom idx ls) :
    i.message = "Trailing whitespace" ∧ i.code = "FORMAT" := by
  induction ls generalizing idx with
  | nil => simp [checkTrailingFrom] at h
  | cons l ls ih =>
      simp only [checkTrailingFrom, List.mem_append] at h
      rcases h with h | h
      · unfold check_trailing_line at h
        split_ifs at h <;> simp_all
      · exact ih h

theorem stepTok_code {st : List (List Char × Nat)} {tk : Tok} {i : Issue}
    (h : i ∈ (stepTok st tk).2) : i.code = "SYNTAX" := by
  unfold stepTok at h
  rcases hbp : BLOCK_PAIRS tk.text with _ | closer <;> rw [hbp] at h <;> simp only at h
  · split_ifs at h
    · cases st with
      | nil => simp_all
      | cons fr rest =>
          rcases fr with ⟨e, sl⟩
          simp only at h
          split_ifs at h <;> simp_all
    · simp_all
  · simp_all

theorem runToks_code :
    ∀ (ts : List Tok) (st : List (List Char × Nat)) {i : Issue},
      i ∈ (runToks st ts).2 → i.code = "SYNTAX" := by
  intro ts
  induction ts with
  | nil => intro st i h; simp [runToks] at h
  | cons tk ts ih =>
      intro st i h
      simp only [runToks, List.mem_append] at h
      rcases h with h | h
      · exact stepTok_code h
      · exact ih _ h

theorem check_block_balance_code {lines : List (List Char)} {i : Issue}
    (h : i ∈ check_block_balance lines) : i.code = "SYNTAX" := by
  simp only [check_block_balance, List.mem_append] at h
  rcases h with h | h
  · exact runToks_code _ _ h
  · rcases List.mem_map.mp h with ⟨fr, _, rfl⟩
    rfl

theorem checkIndentFrom_code {ps : Bool} {n idx : Nat} {ls : List (List Char)} {i : Issue}
    (h : i ∈ checkIndentFrom ps n idx ls) : i.code = "INDENT" := by
  induction ls generalizing idx with
  | nil => simp [checkIndentFrom] at h
  | cons l ls ih =>
      simp only [checkIndentFrom, List.mem_append] at h
      rcases h with h | h
      · exact check_indent_line_code h
      · exact ih h

theorem splitlinesAux_ne_nil :
    ∀ (cur l : List Char), cur ≠ [] ∨ l ≠ [] → splitlinesAux cur l ≠ [] := by
  intro cur l
  induction cur, l using splitlinesAux.induct with
  | case1 cur hcur =>
      intro h
      simp_all [splitlinesAux]
  | case2 cur hcur =>
      intro h
      simp [splitlinesAux, hcur]
  | case3 cur rest2 ih =>
      intro h
      simp [splitlinesAux]
  | case4 cur c rest hne hc ih =>
      intro h
      simp [splitlinesAux, hc]
  | case5 cur c rest hne hc ih =>
      intro h
      have := ih (Or.inl (by simp))
      simp only [splitlinesAux]
      split_ifs
      simp_all

theorem splitlines_ne_nil {s : List Char} (h : s ≠ []) : splitlines s ≠ [] :=
  splitlinesAux_ne_nil [] s (Or.inr h)

theorem final_newline_check_eq_of (source : List Char)
    (h1 : source ≠ []) (h2 : source.getLast? ≠ some '\n') :
    final_newline_check source =
      [⟨(splitlines source).length,
        ((splitlines source).getLastD []).length + 1,
        "Missing final newline", "FORMAT"⟩] := by
  have hne := splitlines_ne_nil h1
  obtain ⟨last, hlast⟩ := Option.isSome_iff_exists.mp
    (List.getLast?_isSome.mpr hne)
  unfold final_newline_check
  rw [if_pos ⟨h1, h2⟩]
  have hEmp : (splitlines source).isEmpty = false := by
    simpa [List.isEmpty_iff] using hne
  rw [hEmp, hlast]
  simp [List.getLastD_eq_getLast?, hlast]

/-- Claim C6: the Missing final newline FORMAT issue appears exactly when the
source is non-empty and does not end in a newline; when it appears it is a
single issue, first in the output, at the last line with column one past the
last line length; a source ending in a newline never produces it. -/
theorem c6_missing_final_newline (source : List Char) (prefer_spaces : Bool)
    (indent_size : Nat) :
    ((analyze_source source prefer_spaces indent_size).countP pMissingNL
       = if source ≠ [] ∧ source.getLast? ≠ some '\n' then 1 else 0) ∧
    (source ≠ [] → source.getLast? ≠ some '\n' →
       (analyze_source source prefer_spaces indent_size).head? =
         some ⟨(splitlines source).length,
               ((splitlines source).getLastD []).length + 1,
               "Missing final newline", "FORMAT"⟩) ∧
    (source.getLast? = some '\n' →
       (analyze_source source prefer_spaces indent_size).countP pMissingNL = 0) := by
  have hind : (check_indentation (splitlines source) prefer_spaces indent_size).countP
      pMissingNL = 0 := by
    refine List.countP_eq_zero.mpr (fun i hi => ?_)
    have := checkIndentFrom_code hi
    simp [pMissingNL, this]
  have htr : (check_trailing_whitespace (splitlines source)).countP pMissingNL = 0 := by
    refine List.countP_eq_zero.mpr (fun i hi => ?_)
    have := (checkTrailingFrom_mem hi).1
    simp [pMissingNL, this]
  have hblk : (check_block_balance (splitlines source)).countP pMissingNL = 0 := by
    refine List.countP_eq_zero.mpr (fun i hi => ?_)
    have := check_block_balance_code hi
    simp [pMissingNL, this]
  have hmain : (analyze_source source prefer_spaces indent_size).countP pMissingNL
      = if source ≠ [] ∧ source.getLast? ≠ some '\n' then 1 else 0 := by
    rw [analyze_source_eq]
    simp only [List.countP_append, hind, htr, hblk, Nat.add_zero]
    by_cases hc : source ≠ [] ∧ source.getLast? ≠ some '\n'
    · rw [if_pos hc, final_newline_check_eq_of source hc.1 hc.2]
      simp [pMissingNL, List.countP_cons]
    · rw [if_neg hc]
      unfold final_newline_check
      rw [if_neg hc]
      rfl
  refine ⟨hmain, ?_, ?_⟩
  · intro h1 h2
    rw [analyze_source_eq, final_newline_check_eq_of source h1 h2]
    rfl
  · intro hnl
    rw [hmain, if_neg]
    intro hc
    exact hc.2 hnl

/-- Witness for Claim C6 on a concrete one-character source. -/
theorem c6_witness :
    (analyze_source ("x".data) true 4).head? =
      some ⟨(splitlines ("x".data)).length,
            ((splitlines ("x".data)).getLastD []).length + 1,
            "Missing final newline", "FORMAT"⟩ :=
  (c6_missing_final_newline ("x".data) true 4).2.1 (by decide) (by decide)

/-- Claim C7: the indentation classifier emits at most one INDENT issue per
line; a mixed space-and-tab indent short-circuits to the single mixed issue at
column 1; and every emitted issue is the mixed issue, the tab issue (only with
tabs disallowed and a tab-only indent, at the first tab column), or the width
issue (only for an all-space indent of length not a multiple of the size, at
the indent length). -/
theorem c7_indent_at_most_one (ps : Bool) (n idx : Nat) (line : List Char)
    (_hn : 0 < n) :
    ((check_indent_line ps n idx line).length ≤ 1) ∧
    (line.dropWhile isSpaceTab ≠ [] → ' ' ∈ line.takeWhile isSpaceTab →
       '\t' ∈ line.takeWhile isSpaceTab →
       check_indent_line ps n idx line =
         [⟨idx, 1, "Mixed tabs and spaces in indentation", "INDENT"⟩]) ∧
    (∀ i ∈ check_indent_line ps n idx line,
       i = ⟨idx, 1, "Mixed tabs and spaces in indentation", "INDENT"⟩ ∨
       (ps = true ∧ '\t' ∈ line.takeWhile isSpaceTab ∧ ' ' ∉ line.takeWhile isSpaceTab ∧
          i = ⟨idx, (line.takeWhile isSpaceTab).findIdx (fun c => c == '\t') + 1,
               "Tab indentation found (expected spaces)", "INDENT"⟩) ∨
       (line.takeWhile isSpaceTab ≠ [] ∧ (∀ c ∈ line.takeWhile isSpaceTab, c = ' ') ∧
          (line.takeWhile isSpaceTab).length % n ≠ 0 ∧
          i = ⟨idx, (line.takeWhile isSpaceTab).length, widthMsg n, "INDENT"⟩)) := by
  simp only [check_indent_line]
  by_cases hs : line.dropWhile isSpaceTab = []
  · rw [if_pos hs]
    exact ⟨by simp, fun h => absurd hs h, by simp⟩
  · rw [if_neg hs]
    by_cases hmix : ' ' ∈ line.takeWhile isSpaceTab ∧ '\t' ∈ line.takeWhile isSpaceTab
    · rw [if_pos hmix]
      refine ⟨by simp, fun _ _ _ => rfl, ?_⟩
      intro i hi
      simp only [List.mem_singleton] at hi
      exact Or.inl hi
    · rw [if_neg hmix]
      by_cases htab : ps = true ∧ '\t' ∈ line.takeWhile isSpaceTab
      · have hnosp : ' ' ∉ line.takeWhile isSpaceTab := fun hsp => hmix ⟨hsp, htab.2⟩
        have hne : line.takeWhile isSpaceTab ≠ [] := by
          intro h0
          rw [h0] at htab
          exact absurd htab.2 (List.not_mem_nil _)
        have hfil : (line.takeWhile isSpaceTab).filter (fun c => !(c == ' '))
            = line.takeWhile isSpaceTab := by
          refine List.filter_eq_self.mpr (fun c hc => ?_)
          have hcs : c ≠ ' ' := fun h => hnosp (h ▸ hc)
          simpa using hcs
        rw [if_pos htab, if_pos ⟨hne, hfil⟩]
        refine ⟨by simp, fun _ hsp _ => absurd hsp hnosp, ?_⟩
        intro i hi
        simp only [List.append_nil, List.mem_singleton] at hi
        exact Or.inr (Or.inl ⟨htab.1, htab.2, hnosp, hi⟩)
      · rw [if_neg htab]
        simp only [List.nil_append]
        by_cases hskip : line.takeWhile isSpaceTab ≠ [] ∧
            (line.takeWhile isSpaceTab).filter (fun c => !(c == ' '))
              = line.takeWhile isSpaceTab
        · rw [if_pos hskip]
          exact ⟨by simp, fun _ hsp htb => absurd ⟨hsp, htb⟩ hmix, by simp⟩
        · rw [if_neg hskip]
          by_cases hw : line.takeWhile isSpaceTab ≠ [] ∧
              (∀ c ∈ line.takeWhile isSpaceTab, c = ' ') ∧
              (line.takeWhile isSpaceTab).length % n ≠ 0
          · rw [if_pos hw]
            refine ⟨by simp, fun _ hsp htb => absurd ⟨hsp, htb⟩ hmix, ?_⟩
            intro i hi
            simp only [List.mem_singleton] at hi
            exact Or.inr (Or.inr ⟨hw.1, hw.2.1, hw.2.2, hi⟩)
          · rw [if_neg hw]
            exact ⟨by simp, fun _ hsp htb => absurd ⟨hsp, htb⟩ hmix, by simp⟩

/-- Witness for Claim C7 on a line with mixed tab-and-space indentation. -/
theorem c7_witness :
    (check_indent_line true 4 1 ('\t' :: ' ' :: 'x' :: [])).length ≤ 1 ∧
    check_indent_line true 4 1 ('\t' :: ' ' :: 'x' :: []) =
      [⟨1, 1, "Mixed tabs and spaces in indentation", "INDENT"⟩] :=
  ⟨(c7_indent_at_most_one true 4 1 ('\t' :: ' ' :: 'x' :: []) (by decide)).1,
   (c7_indent_at_most_one true 4 1 ('\t' :: ' ' :: 'x' :: []) (by decide)).2.1
     (by decide) (by decide) (by decide)⟩

/-- Claim C3: on a closing keyword token, an empty stack yields the
Unexpected issue at the first occurrence column on the raw line and leaves
the stack empty; a mismatched top frame yields the Expected issue and leaves
the frame on the stack; a matching top frame is popped with no issue. -/
theorem c3_closing_token_step (st : List (List Char × Nat)) (tk : Tok)
    (h : BLOCK_ENDINGS tk.text = true) :
    stepTok st tk =
      (match st with
       | [] =>
           ([], [⟨tk.line, find_column tk.raw tk.text, unexpectedMsg tk.text, "SYNTAX"⟩])
       | (expected, startLine) :: rest =>
           if expected = tk.text then (rest, [])
           else
             ((expected, startLine) :: rest,
              [⟨tk.line, find_column tk.raw tk.text, expectedMsg expected startLine,
                "SYNTAX"⟩])) := by
  have hbp : BLOCK_PAIRS tk.text = none := by
    simp only [BLOCK_ENDINGS, Bool.or_eq_true, beq_iff_eq] at h
    rcases h with h | h <;> rw [h] <;> rfl
  simp only [stepTok, hbp, h, if_true]

/-- Witness for Claim C3: a stray closer on an empty stack. -/
theorem c3_witness :
    stepTok [] ⟨("end".data), 1, ("end".data)⟩ =
      ([], [⟨1, find_column ("end".data) ("end".data), unexpectedMsg ("end".data),
            "SYNTAX"⟩]) :=
  c3_closing_token_step [] ⟨("end".data), 1, ("end".data)⟩ (by decide)

/-- Claim C4: after all tokens, the remaining frames are reported as
Unclosed block issues at their opening lines, column 1, oldest first; in
particular a lone opener yields exactly one such issue at its opening line. -/
theorem c4_unclosed_blocks (lines : List (List Char)) :
    (check_block_balance lines =
       (runToks [] (allToks lines)).2
         ++ ((runToks [] (allToks lines)).1).reverse.map unclosedIssue) ∧
    (∀ (o c : List Char) (ln : Nat) (raw : List Char),
       BLOCK_PAIRS o = some c → allToks lines = [⟨o, ln, raw⟩] →
       check_block_balance lines = [⟨ln, 1, unclosedMsg c, "SYNTAX"⟩]) := by
  refine ⟨rfl, ?_⟩
  intro o c ln raw hp hts
  unfold check_block_balance
  rw [hts]
  simp [runToks, stepTok, hp, unclosedIssue]

/-- Witness for Claim C4: a lone function opener is reported unclosed. -/
theorem c4_witness :
    check_block_balance [("function".data)] =
      [⟨1, 1, unclosedMsg ("end".data), "SYNTAX"⟩] :=
  (c4_unclosed_blocks [("function".data)]).2 ("function".data) ("end".data) 1
    ("function".data) (by decide) rfl

/-! Lemmas for Claim C2 about the stripper. -/

theorem stripAux_none_cons (c : Char) (rest : List Char) :
    stripAux none (c :: rest) =
      if c = '-' ∧ rest.head? = some '-' then []
      else if c = dquote ∨ c = squote then ' ' :: stripAux (some c) rest
      else c :: stripAux none rest := rfl

theorem stripAux_some_cons_ne (q c : Char) (rest : List Char) (hc : c ≠ '\\') :
    stripAux (some q) (c :: rest) =
      if c = q then ' ' :: stripAux none rest else ' ' :: stripAux (some q) rest := by
  cases rest with
  | nil => rw [stripAux.eq_3, if_neg hc]
  | cons a r => rw [stripAux.eq_4, if_neg hc]

theorem stripAux_escape (q c : Char) (rest : List Char) :
    stripAux (some q) ('\\' :: c :: rest) = ' ' :: stripAux (some q) rest := by
  rw [stripAux.eq_4, if_pos rfl]

theorem stripAux_length_le :
    ∀ (st : Option Char) (l : List Char), (stripAux st l).length ≤ l.length := by
  intro st l
  induction st, l using stripAux.induct with
  | case1 x => simp [stripAux.eq_1]
  | case2 c rest h => rw [stripAux_none_cons, if_pos h]; simp
  | case3 c rest h1 h2 ih =>
      rw [stripAux_none_cons, if_neg h1, if_pos h2]
      simp only [List.length_cons]
      omega
  | case4 c rest h1 h2 ih =>
      rw [stripAux_none_cons, if_neg h1, if_neg h2]
      simp only [List.length_cons]
      omega
  | case5 q => simp [stripAux.eq_3]
  | case6 q head rest2 ih =>
      rw [stripAux_escape]
      simp only [List.length_cons]
      omega
  | case7 c rest h ih =>
      rw [stripAux_some_cons_ne _ _ _ h, if_pos rfl]
      simp only [List.length_cons]
      omega
  | case8 q c rest h1 h2 ih =>
      rw [stripAux_some_cons_ne _ _ _ h1, if_neg h2]
      simp only [List.length_cons]
      omega

theorem stripAux_length_eq :
    ∀ (st : Option Char) (l : List Char), '\\' ∉ l → hasDD l = false →
      (stripAux st l).length = l.length := by
  intro st l
  induction l generalizing st with
  | nil => intro _ _; cases st <;> rfl
  | cons c rest ih =>
      intro hnb hdd
      have hc : c ≠ '\\' := by
        intro h
        exact hnb (h ▸ List.mem_cons_self c rest)
      have hnb' : '\\' ∉ rest := fun h => hnb (List.mem_cons_of_mem c h)
      have hdd2 : ¬(c = '-' ∧ rest.head? = some '-') ∧ hasDD rest = false := by
        have := hdd
        simp only [hasDD, Bool.or_eq_false_iff, decide_eq_false_iff_not] at this
        exact this
      cases st with
      | none =>
          rw [stripAux_none_cons, if_neg hdd2.1]
          by_cases hq : c = dquote ∨ c = squote
          · rw [if_pos hq]
            simp [ih (some c) hnb' hdd2.2]
          · rw [if_neg hq]
            simp [ih none hnb' hdd2.2]
      | some q =>
          rw [stripAux_some_cons_ne _ _ _ hc]
          by_cases hcq : c = q
          · rw [if_pos hcq]
            simp [ih none hnb' hdd2.2]
          · rw [if_neg hcq]
            simp [ih (some q) hnb' hdd2.2]

theorem strBody_strip {q : Char} (hq : q ≠ '\\') :
    ∀ {body : List Char} {n k : Nat}, StrBody q body n k →
      ∀ (post : List Char),
        stripAux (some q) (body ++ q :: post)
          = List.replicate (n + 1) ' ' ++ stripAux none post ∧
        body.length = n + k := by
  intro body n k hb
  induction hb with
  | nil =>
      intro post
      constructor
      · rw [List.nil_append, stripAux_some_cons_ne q q post hq, if_pos rfl]
        rfl
      · rfl
  | chr c rest n k hcq hcb hb ih =>
      intro post
      obtain ⟨ih1, ih2⟩ := ih post
      constructor
      · rw [List.cons_append, stripAux_some_cons_ne q c _ hcb, if_neg hcq, ih1]
        simp [List.replicate_succ]
      · simp only [List.length_cons, ih2]
        omega
  | esc c rest n k hb ih =>
      intro post
      obtain ⟨ih1, ih2⟩ := ih post
      constructor
      · rw [List.cons_append, List.cons_append, stripAux_escape, ih1]
        simp [List.replicate_succ]
      · simp only [List.length_cons, ih2]
        omega

/-- Counterexample to Claim C2 as stated: the four-character line consisting
of a double-quoted string with one escaped character strips to only three
spaces, so the result is not a same-length line and the escaped character is
not replaced by a space of its own. -/
theorem c2_counterexample :
    strip_comments (dquote :: '\\' :: 'a' :: dquote :: []) = [' ', ' ', ' '] ∧
    (strip_comments (dquote :: '\\' :: 'a' :: dquote :: [])).length ≠
      (dquote :: '\\' :: 'a' :: dquote :: []).length := by
  constructor
  · rfl
  · decide

/-- Claim C2 amended: the stripper blanks string-literal contents and quotes
one space per consumed unit: an opening quote becomes a space, and a string
body made of `n` units (`k` of them backslash-escape pairs) plus its closing
quote becomes exactly `n + 1` spaces, so the output is shorter than that
segment by exactly `k`, one character per escape pair; the escaped character
is consumed blindly, never inspected as a string terminator or comment
start; everything from an unquoted comment marker on is dropped; the
stripper never lengthens a line and preserves length exactly on lines with
no backslash and no two consecutive dashes. -/
theorem c2_strip_escape_and_length :
    (∀ (st : Option Char) (l : List Char), (stripAux st l).length ≤ l.length) ∧
    (∀ (st : Option Char) (l : List Char), '\\' ∉ l → hasDD l = false →
       (stripAux st l).length = l.length) ∧
    (∀ (q : Char) (rest : List Char), q = dquote ∨ q = squote →
       stripAux none (q :: rest) = ' ' :: stripAux (some q) rest) ∧
    (∀ (q : Char) (body post : List Char) (n k : Nat), q ≠ '\\' →
       StrBody q body n k →
       stripAux (some q) (body ++ q :: post)
         = List.replicate (n + 1) ' ' ++ stripAux none post ∧
       body.length = n + k ∧
       (List.replicate (n + 1) ' ').length + k = (body ++ [q]).length) ∧
    (∀ (q c : Char) (rest : List Char),
       stripAux (some q) ('\\' :: c :: rest) = ' ' :: stripAux (some q) rest) ∧
    (∀ (rest : List Char), stripAux none ('-' :: '-' :: rest) = []) := by
  refine ⟨stripAux_length_le, stripAux_length_eq, ?_, ?_, stripAux_escape,
    fun rest => by rw [stripAux_none_cons, if_pos ⟨rfl, rfl⟩]⟩
  · intro q rest hq
    have hqd : q ≠ '-' := by rcases hq with h | h <;> subst h <;> decide
    rw [stripAux_none_cons, if_neg (fun hand => hqd hand.1), if_pos hq]
  · intro q body post n k hq hb
    obtain ⟨h1, h2⟩ := strBody_strip hq hb post
    refine ⟨h1, h2, ?_⟩
    simp only [List.length_replicate, List.length_append, List.length_cons,
      List.length_nil, h2]
    omega

/-- Witness for the amended Claim C2: a plain line keeps its length, and the
three-unit body with one escape pair plus its closing quote strips to four
spaces (five input characters, one escape pair). -/
theorem c2_witness :
    (stripAux none ("abc".data)).length = ("abc".data).length ∧
    stripAux (some dquote) (('a' :: '\\' :: 'b' :: 'c' :: []) ++ dquote :: [])
      = List.replicate 4 ' ' ++ stripAux none [] :=
  ⟨c2_strip_escape_and_length.2.1 none ("abc".data) (by decide) (by decide),
   (c2_strip_escape_and_length.2.2.2.1 dquote ('a' :: '\\' :: 'b' :: 'c' :: [])
      [] 3 1 (by decide)
      (StrBody.chr 'a' ('\\' :: 'b' :: 'c' :: []) 2 1 (by decide) (by decide)
        (StrBody.esc 'b' ('c' :: []) 1 0
          (StrBody.chr 'c' [] 0 0 (by decide) (by decide) StrBody.nil)))).1⟩

/-! Lemmas for Claim C1 about balanced token sequences. -/

theorem map_eq_append_split {α β : Type} (f : α → β) :
    ∀ (ws1 : List β) (ts : List α) (ws2 : List β), ts.map f = ws1 ++ ws2 →
      ∃ t1 t2, ts = t1 ++ t2 ∧ t1.map f = ws1 ∧ t2.map f = ws2 := by
  intro ws1
  induction ws1 with
  | nil =>
      intro ts ws2 h
      exact ⟨[], ts, rfl, rfl, h⟩
  | cons w ws1 ih =>
      intro ts ws2 h
      cases ts with
      | nil => simp at h
      | cons t ts =>
          simp only [List.map_cons, List.cons_append, List.cons.injEq] at h
          obtain ⟨h1, h2⟩ := h
          obtain ⟨t1, t2, rfl, hm1, hm2⟩ := ih ts ws2 h2
          exact ⟨t :: t1, t2, rfl, by simp [h1, hm1], hm2⟩

theorem runToks_append (ts1 ts2 : List Tok) :
    ∀ (st : List (List Char × Nat)),
      runToks st (ts1 ++ ts2) =
        ((runToks (runToks st ts1).1 ts2).1,
         (runToks st ts1).2 ++ (runToks (runToks st ts1).1 ts2).2) := by
  induction ts1 with
  | nil => intro st; simp [runToks]
  | cons tk ts1 ih =>
      intro st
      simp [runToks, ih, List.append_assoc]

theorem closer_of_pair {o c : List Char} (h : BLOCK_PAIRS o = some c) :
    BLOCK_PAIRS c = none ∧ BLOCK_ENDINGS c = true := by
  unfold BLOCK_PAIRS at h
  split_ifs at h <;> injection h with h2 <;> subst h2 <;> decide

theorem runToks_balanced {ws : List (List Char)} (hb : Balanced ws) :
    ∀ (ts : List Tok), ts.map Tok.text = ws →
      ∀ (st : List (List Char × Nat)), runToks st ts = (st, []) := by
  induction hb with
  | nil =>
      intro ts h st
      have hts : ts = [] := List.map_eq_nil_iff.mp h
      subst hts
      rfl
  | node o c inner rest hpair hin hrest ih1 ih2 =>
      intro ts h st
      cases ts with
      | nil => simp at h
      | cons tk0 ts1 =>
          rw [List.map_cons] at h
          injection h with h0 h1
          obtain ⟨t1, t2, hts, hm1, hm2⟩ :=
            map_eq_append_split Tok.text inner ts1 (c :: rest) h1
          subst hts
          cases t2 with
          | nil => simp at hm2
          | cons tkc t2' =>
              rw [List.map_cons] at hm2
              injection hm2 with hc hm2'
              have hcl := closer_of_pair hpair
              have hstep0 : stepTok st tk0 = ((c, tk0.line) :: st, []) := by
                simp [stepTok, h0, hpair]
              have hstepc : ∀ s, stepTok ((c, tk0.line) :: s) tkc = (s, []) := by
                intro s
                simp [stepTok, hc, hcl.1, hcl.2]
              simp only [runToks, hstep0]
              rw [runToks_append t1 (tkc :: t2') ((c, tk0.line) :: st),
                  ih1 t1 hm1 ((c, tk0.line) :: st)]
              simp only [runToks, hstepc]
              rw [ih2 t2' hm2' st]
              simp

/-- Claim C1: a source whose token stream is a balanced sequence of block
keyword tokens produces no block-balance issues at all, at any nesting
depth. -/
theorem c1_balanced_no_syntax (lines : List (List Char))
    (hb : Balanced ((allToks lines).map Tok.text)) :
    check_block_balance lines = [] := by
  have h := runToks_balanced hb (allToks lines) rfl []
  simp [check_block_balance, h]

/-- Witness for Claim C1 on a nested two-line balanced source. -/
theorem c1_witness :
    check_block_balance [("function do".data), ("end end".data)] = [] := by
  apply c1_balanced_no_syntax
  have h : (allToks [("function do".data), ("end end".data)]).map Tok.text
      = [("function".data), ("do".data), ("end".data), ("end".data)] := by decide
  rw [h]
  exact Balanced.node ("function".data) ("end".data)
    [("do".data), ("end".data)] [] (by decide)
    (Balanced.node ("do".data) ("end".data) [] [] (by decide) Balanced.nil Balanced.nil)
    Balanced.nil

/-! Lemmas for Claim C5: block-balance and indentation results depend on a
line only through its stripped token stream and leading whitespace. -/

theorem stepTok_key_congr (st : List (List Char × Nat)) (tk1 tk2 : Tok)
    (h : tokKey tk1 = tokKey tk2) :
    (stepTok st tk1).1 = (stepTok st tk2).1 ∧
    (stepTok st tk1).2.map issueKey = (stepTok st tk2).2.map issueKey := by
  have ht : tk1.text = tk2.text := congrArg Prod.fst h
  have hl : tk1.line = tk2.line := congrArg Prod.snd h
  cases hbp : BLOCK_PAIRS tk2.text with
  | some closer => simp [stepTok, ht, hl, hbp]
  | none =>
      by_cases he : BLOCK_ENDINGS tk2.text = true
      · cases st with
        | nil => simp [stepTok, ht, hl, hbp, he, issueKey]
        | cons fr rest =>
            rcases fr with ⟨e, sl⟩
            by_cases het : e = tk2.text
            · simp [stepTok, ht, hl, hbp, he, het]
            · simp [stepTok, ht, hl, hbp, he, het, issueKey]
      · simp [stepTok, ht, hl, hbp, he]

theorem runToks_key_congr :
    ∀ (ts1 ts2 : List Tok), ts1.map tokKey = ts2.map tokKey →
      ∀ (st : List (List Char × Nat)),
        (runToks st ts1).1 = (runToks st ts2).1 ∧
        (runToks st ts1).2.map issueKey = (runToks st ts2).2.map issueKey := by
  intro ts1
  induction ts1 with
  | nil =>
      intro ts2 h st
      have hts : ts2 = [] := List.map_eq_nil_iff.mp h.symm
      subst hts
      exact ⟨rfl, rfl⟩
  | cons tk1 ts1 ih =>
      intro ts2 h st
      cases ts2 with
      | nil => simp at h
      | cons tk2 ts2 =>
          rw [List.map_cons, List.map_cons] at h
          injection h with h0 h1
          have hs := stepTok_key_congr st tk1 tk2 h0
          refine ⟨?_, ?_⟩
          · simp only [runToks]
            rw [← hs.1]
            exact (ih ts2 h1 (stepTok st tk1).1).1
          · simp only [runToks, List.map_append]
            rw [← hs.1, hs.2, (ih ts2 h1 (stepTok st tk1).1).2]

theorem lineToks_key (idx : Nat) (l : List Char) :
    (lineToks idx l).map tokKey
      = (tokenize (strip_comments l)).map (fun t => (t, idx)) := by
  simp [lineToks, List.map_map, Function.comp, tokKey]

theorem tokenizeAux_replicate_space :
    ∀ (k : Nat) (bs : List Char),
      tokenizeAux [] (List.replicate k ' ' ++ bs) = tokenizeAux [] bs := by
  have hsp : isWordChar ' ' = false := by decide
  intro k
  induction k with
  | zero => intro bs; rfl
  | succ k ih =>
      intro bs
      simp [List.replicate_succ, tokenizeAux, hsp, ih]

theorem check_indent_line_congr (ps : Bool) (n idx : Nat) (l1 l2 : List Char)
    (ht : l1.takeWhile isSpaceTab = l2.takeWhile isSpaceTab)
    (h1 : l1.dropWhile isSpaceTab ≠ []) (h2 : l2.dropWhile isSpaceTab ≠ []) :
    check_indent_line ps n idx l1 = check_indent_line ps n idx l2 := by
  simp only [check_indent_line]
  rw [if_neg h1, if_neg h2, ht]

theorem openBody_strip {q : Char} (_hq : q ≠ '\\') :
    ∀ {b : List Char}, OpenBody q b →
      ∃ m, stripAux (some q) b = List.replicate m ' ' := by
  intro b hb
  induction hb with
  | nil => exact ⟨0, rfl⟩
  | bs =>
      refine ⟨1, ?_⟩
      rw [stripAux.eq_3, if_pos rfl]
      rfl
  | chr c rest hcq hcb hb ih =>
      obtain ⟨m, hm⟩ := ih
      refine ⟨m + 1, ?_⟩
      rw [stripAux_some_cons_ne q c rest hcb, if_neg hcq, hm, List.replicate_succ]
  | esc c rest hb ih =>
      obtain ⟨m, hm⟩ := ih
      refine ⟨m + 1, ?_⟩
      rw [stripAux_escape, hm, List.replicate_succ]

theorem tokenizeAux_flush (m : Nat) (hm : 1 ≤ m) (w S : List Char) :
    tokenizeAux w (List.replicate m ' ' ++ S)
      = (if w.isEmpty then [] else [w.reverse]) ++ tokenizeAux [] S := by
  have hsp : isWordChar ' ' = false := by decide
  cases m with
  | zero => omega
  | succ m =>
      rw [List.replicate_succ, List.cons_append]
      by_cases hw : w.isEmpty <;>
        simp [tokenizeAux, hsp, hw, tokenizeAux_replicate_space]

theorem tokenizeAux_sep_congr {S1 S2 : List Char}
    (h : ∀ w, tokenizeAux w S1 = tokenizeAux w S2) (c : Char)
    (hc : isWordChar c = false) (w : List Char) :
    tokenizeAux w (c :: S1) = tokenizeAux w (c :: S2) := by
  simp only [tokenizeAux, hc]
  by_cases hw : w.isEmpty <;> simp [hw, h []]

theorem string_split :
    ∀ (st : Option Char) (r : List Char) (q : Char), st = some q →
      (∃ b rest n k, StrBody q b n k ∧ r = b ++ q :: rest) ∨ OpenBody q r := by
  intro st r
  induction st, r using stripAux.induct with
  | case1 x =>
      intro q h
      exact Or.inr OpenBody.nil
  | case2 c rest h2 =>
      intro q h
      simp at h
  | case3 c rest h1 h2 ih =>
      intro q h
      simp at h
  | case4 c rest h1 h2 ih =>
      intro q h
      simp at h
  | case5 qq =>
      intro q h
      injection h with h
      subst h
      exact Or.inr OpenBody.bs
  | case6 qq head rest2 ih =>
      intro q h
      injection h with h
      subst h
      rcases ih _ rfl with ⟨b, rest, n, k, hb, hr⟩ | ho
      · exact Or.inl ⟨'\\' :: head :: b, rest, n + 1, k + 1,
          StrBody.esc head b n k hb, by simp [hr]⟩
      · exact Or.inr (OpenBody.esc head rest2 ho)
  | case7 c rest hne ih =>
      intro q h
      injection h with h
      subst h
      exact Or.inl ⟨[], rest, 0, 0, StrBody.nil, rfl⟩
  | case8 qq c rest h1 h2 ih =>
      intro q h
      injection h with h
      subst h
      rcases ih _ rfl with ⟨b, rest2, n, k, hb, hr⟩ | ho
      · exact Or.inl ⟨c :: b, rest2, n + 1, k,
          StrBody.chr c b n k h2 h1 hb, by simp [hr]⟩
      · exact Or.inr (OpenBody.chr c rest h2 h1 ho)

theorem codeAgree_refl : ∀ (l : List Char), CodeAgree l l := by
  have aux : ∀ (m : Nat) (l : List Char), l.length ≤ m → CodeAgree l l := by
    intro m
    induction m with
    | zero =>
        intro l hl
        have hnil : l = [] := List.eq_nil_of_length_eq_zero (Nat.le_zero.mp hl)
        subst hnil
        exact CodeAgree.nil
    | succ m ih =>
        intro l hl
        cases l with
        | nil => exact CodeAgree.nil
        | cons c r =>
            by_cases hq : c = dquote ∨ c = squote
            · rcases string_split (some c) r c rfl with ⟨b, rest, n, k, hb, hr⟩ | ho
              · subst hr
                have hrest : rest.length ≤ m := by
                  simp only [List.length_cons, List.length_append] at hl
                  omega
                exact CodeAgree.str c b b rest rest n k n k hq hb hb (ih rest hrest)
              · exact CodeAgree.ostr c r r hq ho ho
            · by_cases hd : c = '-'
              · subst hd
                cases r with
                | nil =>
                    exact CodeAgree.dash [] [] (by simp) (by simp) CodeAgree.nil
                | cons c2 r2 =>
                    by_cases hd2 : c2 = '-'
                    · subst hd2
                      exact CodeAgree.comment r2 r2
                    · refine CodeAgree.dash (c2 :: r2) (c2 :: r2) ?_ ?_
                        (ih (c2 :: r2) ?_)
                      · simp [hd2]
                      · simp [hd2]
                      · simp only [List.length_cons] at hl ⊢
                        omega
              · refine CodeAgree.code c r r hd hq (ih r ?_)
                simp only [List.length_cons] at hl
                omega
  intro l
  exact aux l.length l le_rfl

theorem codeAgree_tokens {l1 l2 : List Char} (h : CodeAgree l1 l2) :
    ∀ (w : List Char),
      tokenizeAux w (strip_comments l1) = tokenizeAux w (strip_comments l2) := by
  induction h with
  | nil => intro w; rfl
  | comment r1 r2 =>
      have e1 : strip_comments ('-' :: '-' :: r1) = [] := by
        rw [strip_comments, stripAux_none_cons, if_pos ⟨rfl, rfl⟩]
      have e2 : strip_comments ('-' :: '-' :: r2) = [] := by
        rw [strip_comments, stripAux_none_cons, if_pos ⟨rfl, rfl⟩]
      intro w
      rw [e1, e2]
  | dash r1 r2 h1 h2 hca ih =>
      have hnq : ¬('-' = dquote ∨ '-' = squote) := by decide
      have e1 : strip_comments ('-' :: r1) = '-' :: strip_comments r1 := by
        rw [strip_comments, stripAux_none_cons, if_neg (fun hand => h1 hand.2),
          if_neg hnq]
        rfl
      have e2 : strip_comments ('-' :: r2) = '-' :: strip_comments r2 := by
        rw [strip_comments, stripAux_none_cons, if_neg (fun hand => h2 hand.2),
          if_neg hnq]
        rfl
      intro w
      rw [e1, e2]
      exact tokenizeAux_sep_congr ih '-' (by decide) w
  | code c r1 r2 hc hq hca ih =>
      have e1 : strip_comments (c :: r1) = c :: strip_comments r1 := by
        rw [strip_comments, stripAux_none_cons, if_neg (fun hand => hc hand.1),
          if_neg hq]
        rfl
      have e2 : strip_comments (c :: r2) = c :: strip_comments r2 := by
        rw [strip_comments, stripAux_none_cons, if_neg (fun hand => hc hand.1),
          if_neg hq]
        rfl
      intro w
      rw [e1, e2]
      by_cases hic : isWordChar c
      · simp only [tokenizeAux, hic, if_true]
        exact ih (c :: w)
      · exact tokenizeAux_sep_congr ih c (by simpa using hic) w
  | str q b1 b2 r1 r2 n1 k1 n2 k2 hq hb1 hb2 hca ih =>
      have hqb : q ≠ '\\' := by rcases hq with h | h <;> subst h <;> decide
      have hqd : q ≠ '-' := by rcases hq with h | h <;> subst h <;> decide
      have e1 : strip_comments (q :: b1 ++ q :: r1)
          = List.replicate (n1 + 2) ' ' ++ strip_comments r1 := by
        rw [strip_comments, List.cons_append, stripAux_none_cons,
          if_neg (fun hand => hqd hand.1), if_pos hq, (strBody_strip hqb hb1 r1).1]
        simp [List.replicate_succ, strip_comments]
      have e2 : strip_comments (q :: b2 ++ q :: r2)
          = List.replicate (n2 + 2) ' ' ++ strip_comments r2 := by
        rw [strip_comments, List.cons_append, stripAux_none_cons,
          if_neg (fun hand => hqd hand.1), if_pos hq, (strBody_strip hqb hb2 r2).1]
        simp [List.replicate_succ, strip_comments]
      intro w
      rw [e1, e2, tokenizeAux_flush (n1 + 2) (by omega) w _,
        tokenizeAux_flush (n2 + 2) (by omega) w _, ih []]
  | ostr q b1 b2 hq ho1 ho2 =>
      have hqb : q ≠ '\\' := by rcases hq with h | h <;> subst h <;> decide
      have hqd : q ≠ '-' := by rcases hq with h | h <;> subst h <;> decide
      obtain ⟨m1, hm1⟩ := openBody_strip hqb ho1
      obtain ⟨m2, hm2⟩ := openBody_strip hqb ho2
      have e1 : strip_comments (q :: b1) = List.replicate (m1 + 1) ' ' := by
        rw [strip_comments, stripAux_none_cons, if_neg (fun hand => hqd hand.1),
          if_pos hq, hm1, List.replicate_succ]
      have e2 : strip_comments (q :: b2) = List.replicate (m2 + 1) ' ' := by
        rw [strip_comments, stripAux_none_cons, if_neg (fun hand => hqd hand.1),
          if_pos hq, hm2, List.replicate_succ]
      intro w
      have f1 := tokenizeAux_flush (m1 + 1) (by omega) w []
      have f2 := tokenizeAux_flush (m2 + 1) (by omega) w []
      rw [List.append_nil] at f1 f2
      rw [e1, e2, f1, f2]

theorem codeAgree_ws {l1 l2 : List Char} (h : CodeAgree l1 l2) :
    l1.takeWhile isSpaceTab = l2.takeWhile isSpaceTab ∧
    (l1.dropWhile isSpaceTab = [] ↔ l2.dropWhile isSpaceTab = []) := by
  have hd : isSpaceTab '-' = false := by decide
  induction h with
  | nil => exact ⟨rfl, Iff.rfl⟩
  | comment r1 r2 =>
      constructor
      · simp [List.takeWhile_cons, hd]
      · simp [List.dropWhile_cons, hd]
  | dash r1 r2 h1 h2 hca ih =>
      constructor
      · simp [List.takeWhile_cons, hd]
      · simp [List.dropWhile_cons, hd]
  | code c r1 r2 hc hq hca ih =>
      by_cases hws : isSpaceTab c
      · constructor
        · simp [List.takeWhile_cons, hws, ih.1]
        · simp only [List.dropWhile_cons, hws, if_true]
          exact ih.2
      · simp [List.takeWhile_cons, List.dropWhile_cons, hws]
  | str q b1 b2 r1 r2 n1 k1 n2 k2 hq hb1 hb2 hca ih =>
      have hqw : isSpaceTab q = false := by
        rcases hq with h | h <;> subst h <;> decide
      constructor
      · simp [List.takeWhile_cons, hqw]
      · simp [List.dropWhile_cons, hqw]
  | ostr q b1 b2 hq ho1 ho2 =>
      have hqw : isSpaceTab q = false := by
        rcases hq with h | h <;> subst h <;> decide
      constructor
      · simp [List.takeWhile_cons, hqw]
      · simp [List.dropWhile_cons, hqw]

theorem check_indent_line_agree (ps : Bool) (n idx : Nat) {l1 l2 : List Char}
    (h : CodeAgree l1 l2) :
    check_indent_line ps n idx l1 = check_indent_line ps n idx l2 := by
  obtain ⟨ht, hiff⟩ := codeAgree_ws h
  by_cases h1 : l1.dropWhile isSpaceTab = []
  · have h2 := hiff.mp h1
    simp only [check_indent_line]
    rw [if_pos h1, if_pos h2]
  · exact check_indent_line_congr ps n idx l1 l2 ht h1 (fun h2 => h1 (hiff.mpr h2))

theorem checkIndentFrom_agree (ps : Bool) (n : Nat) :
    ∀ {ls1 ls2 : List (List Char)}, List.Forall₂ CodeAgree ls1 ls2 →
      ∀ (idx : Nat), checkIndentFrom ps n idx ls1 = checkIndentFrom ps n idx ls2 := by
  intro ls1 ls2 h
  induction h with
  | nil => intro idx; rfl
  | cons hl hls ih =>
      intro idx
      simp only [checkIndentFrom]
      rw [check_indent_line_agree ps n idx hl, ih (idx + 1)]

theorem allToksFrom_agree :
    ∀ {ls1 ls2 : List (List Char)}, List.Forall₂ CodeAgree ls1 ls2 →
      ∀ (idx : Nat),
        (allToksFrom idx ls1).map tokKey = (allToksFrom idx ls2).map tokKey := by
  intro ls1 ls2 h
  induction h with
  | nil => intro idx; rfl
  | cons hl hls ih =>
      intro idx
      simp only [allToksFrom, List.map_append]
      rw [lineToks_key, lineToks_key, ih (idx + 1)]
      have htok := codeAgree_tokens hl []
      simp only [tokenize]
      rw [htok]

theorem check_block_balance_agree {ls1 ls2 : List (List Char)}
    (h : List.Forall₂ CodeAgree ls1 ls2) :
    (check_block_balance ls1).map issueKey
      = (check_block_balance ls2).map issueKey := by
  have hk := allToksFrom_agree h 1
  have hr := runToks_key_congr (allToksFrom 1 ls1) (allToksFrom 1 ls2) hk []
  simp only [check_block_balance, allToks, List.map_append]
  rw [hr.2, hr.1]

/-- Claim C5: keyword text inside a string literal or after a comment marker
never causes a block-balance or indentation issue.  CodeAgree relates two
lines exactly when they share their normal-mode code and differ only inside
string literals (escapes included, terminated or not) and in the text after
a comment marker; it is reflexive, so it decomposes every line.  Under it,
line by line, the indentation issues are unchanged and the block-balance
issues are unchanged up to their raw-line text-search columns, so the
contents of strings and comments never create or remove an issue; the two
example lines produce no issue at all. -/
theorem c5_strings_comments_inert (ps : Bool) (n idx : Nat)
    (lines1 lines2 : List (List Char)) (l1 l2 : List Char)
    (hls : List.Forall₂ CodeAgree lines1 lines2) (hl : CodeAgree l1 l2) :
    (∀ l : List Char, CodeAgree l l) ∧
    ((check_block_balance lines1).map issueKey
       = (check_block_balance lines2).map issueKey) ∧
    (checkIndentFrom ps n idx lines1 = checkIndentFrom ps n idx lines2) ∧
    (check_indent_line ps n idx l1 = check_indent_line ps n idx l2) ∧
    check_block_balance [("-- then".data)] = [] ∧
    check_block_balance [("x = ".data ++ dquote :: ("end".data ++ [dquote]))] = [] :=
  ⟨codeAgree_refl, check_block_balance_agree hls, checkIndentFrom_agree ps n hls idx,
   check_indent_line_agree ps n idx hl, rfl, rfl⟩

/-- Witness for Claim C5: a line holding a one-character string followed by a
comment containing the keyword end agrees with a line holding an escaped
string and an empty comment, and both yield the same block-balance
findings. -/
theorem c5_witness :
    (check_block_balance
        [('x' :: ' ' :: (dquote :: ('a' :: []) ++ dquote
            :: (' ' :: '-' :: '-' :: 'e' :: 'n' :: 'd' :: [])))]).map issueKey
      = (check_block_balance
        [('x' :: ' ' :: (dquote :: ('b' :: '\\' :: 'c' :: []) ++ dquote
            :: (' ' :: '-' :: '-' :: [])))]).map issueKey :=
  (c5_strings_comments_inert true 4 1
    [('x' :: ' ' :: (dquote :: ('a' :: []) ++ dquote
        :: (' ' :: '-' :: '-' :: 'e' :: 'n' :: 'd' :: [])))]
    [('x' :: ' ' :: (dquote :: ('b' :: '\\' :: 'c' :: []) ++ dquote
        :: (' ' :: '-' :: '-' :: [])))]
    [] []
    (List.Forall₂.cons
      (CodeAgree.code 'x' _ _ (by decide) (by decide)
        (CodeAgree.code ' ' _ _ (by decide) (by decide)
          (CodeAgree.str dquote ('a' :: []) ('b' :: '\\' :: 'c' :: [])
            (' ' :: '-' :: '-' :: 'e' :: 'n' :: 'd' :: []) (' ' :: '-' :: '-' :: [])
            1 0 2 1 (Or.inl rfl)
            (StrBody.chr 'a' [] 0 0 (by decide) (by decide) StrBody.nil)
            (StrBody.chr 'b' ('\\' :: 'c' :: []) 1 1 (by decide) (by decide)
              (StrBody.esc 'c' [] 0 0 StrBody.nil))
            (CodeAgree.code ' ' _ _ (by decide) (by decide)
              (CodeAgree.comment ('e' :: 'n' :: 'd' :: []) [])))))
      List.Forall₂.nil)
    CodeAgree.nil).2.1

end SenseiLua
